import Mathlib

/-
  Shallow embedding of the svisual-rs embedded client (src/lib.rs).

  Names are byte strings (values of static str compared bytewise), samples are
  raw 32-bit words stored as `Nat` (the unsigned bit pattern of the `i32`), and
  the `heapless::LinearMap` is an association list in insertion order with
  capacity `N`.  The serial sink is modelled by the list of bytes a successful
  `send_package` pushes through `bwrite_iter`, in order.
-/

namespace SVisual

/-- Types supported by SVisual (`enum ValueType`, `repr(u8)`). -/
inductive ValueType where
  | Bool
  | Int
  | Float
deriving DecidableEq

/-- Numeric discriminant of a `ValueType`, as used by the cast `v.vtype as i32`. -/
def ValueType.code : ValueType → Nat
  | .Bool => 0
  | .Int => 1
  | .Float => 2

/-- Value record of one signal (`struct ValueRec<P>`); `vals` holds `P` raw words. -/
structure ValueRec where
  is_only_front : Bool
  vtype : ValueType
  vals : List Nat
deriving DecidableEq

/-- Constructor `ValueRec::new`: flag cleared, `P` zeroed slots. -/
def ValueRec.new (P : Nat) (vtype : ValueType) : ValueRec :=
  { is_only_front := false, vtype := vtype, vals := List.replicate P 0 }

/-- Errors of adding values to the container (`enum AddError`). -/
inductive AddError where
  | MapOverflow
deriving DecidableEq

/-- Signal and module names: byte strings (static str, bytewise equality). -/
abbrev Name := List Nat

/-- Maximum length of a module or signal name (`Name::MAX_SIZE`). -/
def Name.MAX_SIZE : Nat := 24

/-- Validity checks performed by `Name::new`: nonempty, shorter than `MAX_SIZE`,
    and not one of the two sentinel strings. -/
def Name.valid (n : Name) : Prop :=
  n ≠ [] ∧ n.length < Name.MAX_SIZE ∧
  n ≠ [61, 101, 110, 100, 61] ∧ n ≠ [61, 98, 101, 103, 105, 110, 61]

/-- The signal container `SVMap<N, P> = SVStruct<LinearMap<&str, ValueRec<P>, N>>`:
    a shared write cursor plus the keyed records in insertion order.  `N` is the
    map capacity and `P` the package size; both are compile-time parameters. -/
structure SVMap (N P : Nat) where
  current : Nat
  map : List (Name × ValueRec)
deriving DecidableEq

/-- Constructor `SVMap::new`: empty map, cursor at zero. -/
def SVMap.new {N P : Nat} : SVMap N P :=
  { current := 0, map := [] }

/-- First-match lookup, the behaviour of `LinearMap::get` on the scan-based map. -/
def mapLookup (m : List (Name × ValueRec)) (k : Name) : Option ValueRec :=
  match m with
  | [] => none
  | kv :: rest => if kv.1 = k then some kv.2 else mapLookup rest k

/-- Membership test `LinearMap::contains_key`. -/
def mapContains (m : List (Name × ValueRec)) (k : Name) : Bool :=
  (mapLookup m k).isSome

/-- Apply `f` to the record of the first entry keyed `k` (the effect of
    `get_mut` followed by field writes). -/
def mapUpdate (m : List (Name × ValueRec)) (k : Name) (f : ValueRec → ValueRec) :
    List (Name × ValueRec) :=
  match m with
  | [] => []
  | kv :: rest => if kv.1 = k then (kv.1, f kv.2) :: rest else kv :: mapUpdate rest k f

/-- The insertion phase of `set_value`: when the key is absent, `LinearMap::insert`
    appends a fresh `ValueRec::new(vtype)`, and fails with `MapOverflow` when the
    map already holds `N` entries (heapless `insert` mutates nothing on failure). -/
def insertPhase {N P : Nat} (s : SVMap N P) (name : Name) (vtype : ValueType) :
    Except AddError (List (Name × ValueRec)) :=
  if mapContains s.map name then .ok s.map
  else if s.map.length < N then .ok (s.map ++ [(name, ValueRec.new P vtype)])
  else .error .MapOverflow

/-- Method `SVMap::set_value`: insert if absent, then write the raw word into
    `vals[current]` and set the `is_only_front` flag of that record. -/
def SVMap.set_value {N P : Nat} (s : SVMap N P) (name : Name) (vtype : ValueType)
    (val : Nat) (only_pos_front : Bool) : Except AddError (SVMap N P) :=
  match insertPhase s name vtype with
  | .error e => .error e
  | .ok m1 =>
      .ok { s with
        map := mapUpdate m1 name (fun vr =>
          { vr with vals := vr.vals.set s.current val, is_only_front := only_pos_front }) }

/-- One `impl Value for T`: the two associated constants and `to_i32`, whose
    result is kept as the raw 32-bit word. -/
structure ValueImpl (α : Type) where
  TYPE : ValueType
  ONLY_FRONT : Bool
  to_i32 : α → Nat

/-- The impl `Value for bool`. -/
def boolValue : ValueImpl Bool :=
  { TYPE := .Bool, ONLY_FRONT := false, to_i32 := fun b => cond b 1 0 }

/-- The impl `Value for i32`: the sample is the twos-complement word itself. -/
def i32Value : ValueImpl Nat :=
  { TYPE := .Int, ONLY_FRONT := false, to_i32 := id }

/-- The impl `Value for f32`: modelled on bit patterns, so `to_bits` is the
    identity on the word. -/
def f32Value : ValueImpl Nat :=
  { TYPE := .Float, ONLY_FRONT := false, to_i32 := id }

/-- The impl `Value for OnlyFront`.  Note src/lib.rs line 169: the constant
    `ONLY_FRONT` is `false` in the source, exactly as for plain `bool`. -/
def onlyFrontValue : ValueImpl Bool :=
  { TYPE := .Bool, ONLY_FRONT := false, to_i32 := fun b => cond b 1 0 }

/-- Method `SVMap::set`, dispatching on the `Value` impl of the argument. -/
def SVMap.set {N P : Nat} {α : Type} (s : SVMap N P) (impl : ValueImpl α)
    (name : Name) (value : α) : Except AddError (SVMap N P) :=
  s.set_value name impl.TYPE (impl.to_i32 value) impl.ONLY_FRONT

/-- The body of the roll-forward loop in `NextValue::next`, for one record:
    seed `vals[current]` with `0` for an only-front record and with
    `vals[previous]` otherwise. -/
def rollRecord (cur previous : Nat) (vr : ValueRec) : ValueRec :=
  { vr with vals := vr.vals.set cur (if vr.is_only_front then 0 else vr.vals.getD previous 0) }

/-- The roll-forward loop of `NextValue::next` over the whole map. -/
def rollForward {N P : Nat} (s : SVMap N P) (previous : Nat) : SVMap N P :=
  { s with map := s.map.map (fun kv => (kv.1, rollRecord s.current previous kv.2)) }

/-- Method `NextValue::next` for `SVMap`: advance the cursor, flush on wrap, then
    roll values forward.  The first component is the post state; the second is
    `some` of the state handed to the flush closure `f` when it was invoked
    (cursor already wrapped, values not yet rolled), and `none` otherwise. -/
def SVMap.next {N P : Nat} (s : SVMap N P) : SVMap N P × Option (SVMap N P) :=
  let previous := s.current
  let cur1 := s.current + 1
  if cur1 ≥ P then
    let s1 : SVMap N P := { s with current := cur1 - P }
    (rollForward s1 previous, some s1)
  else
    (rollForward { s with current := cur1 } previous, none)

/-- Run `k` consecutive `next` calls; the second component counts how many of
    them invoked the flush closure. -/
def runTicks {N P : Nat} : Nat → SVMap N P → SVMap N P × Nat
  | 0, s => (s, 0)
  | k + 1, s =>
      let r := s.next
      let rest := runTicks k r.1
      (rest.1, (if r.2.isSome then 1 else 0) + rest.2)

/-- One client call on the container: `set` (by its `set_value` arguments) or a tick. -/
inductive Op where
  | setOp (name : Name) (vtype : ValueType) (val : Nat) (front : Bool)
  | tickOp
deriving DecidableEq

/-- Apply one call; a `set` that returns `MapOverflow` leaves the state as is. -/
def applyOp {N P : Nat} (s : SVMap N P) : Op → SVMap N P
  | .setOp name vtype val fr =>
      match s.set_value name vtype val fr with
      | .ok s2 => s2
      | .error _ => s
  | .tickOp => s.next.1

/-- Run a sequence of client calls. -/
def runOps {N P : Nat} (ops : List Op) (s : SVMap N P) : SVMap N P :=
  ops.foldl applyOp s

/-- Little-endian byte quadruple of a 32-bit word, the effect of `to_le_bytes`
    after the `as u32` / `as i32` cast. -/
def toLeBytes4 (n : Nat) : List Nat :=
  [n % 256, n / 256 % 256, n / 65536 % 256, n / 16777216 % 256]

/-- ASCII bytes of the opening sentinel string. -/
def beginBytes : List Nat := [61, 98, 101, 103, 105, 110, 61]

/-- ASCII bytes of the closing sentinel string. -/
def endBytes : List Nat := [61, 101, 110, 100, 61]

/-- Concatenation of the byte chunks produced for each element, in order. -/
def concatBytes {α : Type} (f : α → List Nat) : List α → List Nat
  | [] => []
  | x :: l => f x ++ concatBytes f l

/-- Byte size of one signal record on the wire (`vl_size` in `send_package`). -/
def vlSize (P : Nat) : Nat := Name.MAX_SIZE + 4 + P * 4

/-- The `full_size` field computed by `send_package`. -/
def fullSize (P : Nat) (m : List (Name × ValueRec)) : Nat :=
  Name.MAX_SIZE + vlSize P * m.length

/-- A name padded on the right with NUL bytes to `MAX_SIZE` bytes. -/
def padName (n : Name) : List Nat :=
  n ++ List.replicate (Name.MAX_SIZE - n.length) 0

/-- One signal record as emitted by `send_package`: padded name, then the
    `vtype` discriminant as a little-endian 32-bit word, then the `P` samples. -/
def recordBytes (kv : Name × ValueRec) : List Nat :=
  padName kv.1 ++ toLeBytes4 kv.2.vtype.code ++ concatBytes toLeBytes4 kv.2.vals

/-- The byte stream a successful `send_package` pushes to the sink, i.e. the
    bytes of all `bwrite_iter` calls in order. -/
def send_package {N P : Nat} (moduleName : Name) (values : SVMap N P) : List Nat :=
  beginBytes ++ toLeBytes4 (fullSize P values.map) ++ padName moduleName ++
    concatBytes recordBytes values.map ++ endBytes

/-- Scenario C walkthrough, first step: a fresh map with package size three after
    a first call set of the only-front value `true` on the signal "p". -/
def scenC1 : SVMap 2 3 :=
  ((SVMap.new : SVMap 2 3).set onlyFrontValue [112] true).toOption.getD SVMap.new

/-- Scenario C walkthrough: the state after the first tick. -/
def scenC2 : SVMap 2 3 := scenC1.next.1

/-- Scenario C walkthrough: the state after the second only-front set. -/
def scenC3 : SVMap 2 3 := (scenC2.set onlyFrontValue [112] true).toOption.getD scenC2

/-- Scenario C walkthrough: the state after the second tick. -/
def scenC4 : SVMap 2 3 := scenC3.next.1

/-- Concrete one-signal map used as a witness input for the hold property. -/
def holdWitnessMap : SVMap 1 2 :=
  { current := 0,
    map := [([120], { is_only_front := false, vtype := ValueType.Bool, vals := [1, 0] })] }

/-- Concrete one-signal map used as a witness input for the serializer. -/
def packageWitnessMap : SVMap 1 1 :=
  { current := 0,
    map := [([97], { is_only_front := false, vtype := ValueType.Int, vals := [7] })] }

/-- Concrete map at full capacity used as a witness input for the overflow path. -/
def fullWitnessMap : SVMap 1 1 :=
  { current := 0,
    map := [([97], { is_only_front := false, vtype := ValueType.Int, vals := [0] })] }

/-- The state produced by registering "p" through the only-front overload on a
    fresh map with package size three. -/
def onlyFrontWitnessResult : SVMap 1 3 :=
  { current := 0,
    map := [([112], { is_only_front := false, vtype := ValueType.Bool, vals := [1, 0, 0] })] }

end SVisual

namespace SVisual

lemma rollForward_current {N P : Nat} (s : SVMap N P) (p : Nat) :
    (rollForward s p).current = s.current := rfl

lemma next_no_wrap {N P : Nat} (s : SVMap N P) (h : s.current + 1 < P) :
    s.next.1.current = s.current + 1 ∧ s.next.2 = none := by
  have hnot : ¬ (s.current + 1 ≥ P) := by omega
  simp [SVMap.next, hnot, rollForward_current]

lemma next_wrap {N P : Nat} (s : SVMap N P) (h : s.current + 1 = P) :
    s.next.1.current = 0 ∧ s.next.2 = some { s with current := 0 } := by
  have hge : s.current + 1 ≥ P := by omega
  have hz : s.current + 1 - P = 0 := by omega
  simp [SVMap.next, hge, hz, rollForward_current]

lemma runTicks_no_flush {N P : Nat} :
    ∀ (k : Nat) (s : SVMap N P), s.current + k < P →
      (runTicks k s).1.current = s.current + k ∧ (runTicks k s).2 = 0
  | 0, s, _ => by simp [runTicks]
  | k + 1, s, h => by
      have h1 : s.current + 1 < P := by omega
      obtain ⟨hc, hf⟩ := next_no_wrap s h1
      have ih := runTicks_no_flush k s.next.1 (by omega)
      simp [runTicks, hf, hc]
      constructor
      · rw [ih.1, hc]
        omega
      · exact ih.2

lemma runTicks_flush_once {N P : Nat} :
    ∀ (k : Nat) (s : SVMap N P), s.current < P → s.current + k = P →
      (runTicks k s).2 = 1 ∧ (runTicks k s).1.current = 0
  | 0, s, hlt, heq => by omega
  | k + 1, s, hlt, heq => by
      by_cases h1 : s.current + 1 < P
      · obtain ⟨hc, hf⟩ := next_no_wrap s h1
        have ih := runTicks_flush_once k s.next.1 (by omega) (by omega)
        simp [runTicks, hf, ih.1, ih.2]
      · have h2 : s.current + 1 = P := by omega
        have hk0 : k = 0 := by omega
        obtain ⟨hc, hf⟩ := next_wrap s h2
        subst hk0
        simp [runTicks, hf, hc]

lemma getD_set_self : ∀ (l : List Nat) (i v : Nat), i < l.length → (l.set i v).getD i 0 = v
  | [], _, _, h => by simp at h
  | _ :: _, 0, _, _ => rfl
  | a :: l, i + 1, v, h => by
      simpa using getD_set_self l i v (by simpa using h)

lemma getD_set_ne : ∀ (l : List Nat) (i j v : Nat), i ≠ j → (l.set i v).getD j 0 = l.getD j 0
  | [], _, _, _, _ => rfl
  | a :: l, 0, 0, v, h => absurd rfl h
  | a :: l, 0, j + 1, v, _ => rfl
  | a :: l, i + 1, 0, v, _ => rfl
  | a :: l, i + 1, j + 1, v, h => by
      simpa using getD_set_ne l i j v (by omega)

lemma mapLookup_update_self :
    ∀ (m : List (Name × ValueRec)) (k : Name) (f : ValueRec → ValueRec) (vr : ValueRec),
      mapLookup m k = some vr → mapLookup (mapUpdate m k f) k = some (f vr)
  | [], _, _, _, h => by simp [mapLookup] at h
  | kv :: rest, k, f, vr, h => by
      by_cases hk : kv.1 = k
      · simp [mapLookup, hk] at h
        simp [mapUpdate, mapLookup, hk, h]
      · simp [mapLookup, hk] at h
        simp [mapUpdate, mapLookup, hk]
        exact mapLookup_update_self rest k f vr h

lemma mapLookup_update_ne :
    ∀ (m : List (Name × ValueRec)) (k : Name) (f : ValueRec → ValueRec) (k2 : Name),
      k2 ≠ k → mapLookup (mapUpdate m k f) k2 = mapLookup m k2
  | [], _, _, _, _ => rfl
  | kv :: rest, k, f, k2, h => by
      have hne : ¬ k = k2 := fun hh => h hh.symm
      by_cases hk : kv.1 = k
      · simp [mapUpdate, mapLookup, hk, hne]
      · by_cases hk2 : kv.1 = k2
        · simp [mapUpdate, mapLookup, hk, hk2, h]
        · simp [mapUpdate, mapLookup, hk, hk2]
          exact mapLookup_update_ne rest k f k2 h

lemma mapLookup_append_none :
    ∀ (m : List (Name × ValueRec)) (k : Name) (vr : ValueRec),
      mapLookup m k = none → mapLookup (m ++ [(k, vr)]) k = some vr
  | [], k, vr, _ => by simp [mapLookup]
  | kv :: rest, k, vr, h => by
      by_cases hk : kv.1 = k
      · simp [mapLookup, hk] at h
      · simp [mapLookup, hk] at h ⊢
        exact mapLookup_append_none rest k vr h

lemma mapContains_false_iff (m : List (Name × ValueRec)) (k : Name) :
    mapContains m k = false ↔ mapLookup m k = none := by
  cases h : mapLookup m k <;> simp [mapContains, h]

lemma mapContains_true_of_some {m : List (Name × ValueRec)} {k : Name} {vr : ValueRec}
    (h : mapLookup m k = some vr) : mapContains m k = true := by
  simp [mapContains, h]

lemma rollRecord_length (c p : Nat) (vr : ValueRec) :
    (rollRecord c p vr).vals.length = vr.vals.length := by
  simp [rollRecord]

lemma next_current_lt {N P : Nat} (s : SVMap N P) (hP : 1 ≤ P) (h1 : s.current < P) :
    s.next.1.current < P := by
  by_cases h : s.current + 1 ≥ P
  · have : s.next.1.current = s.current + 1 - P := by
      simp [SVMap.next, h, rollForward_current]
    omega
  · have : s.next.1.current = s.current + 1 := by
      simp [SVMap.next, h, rollForward_current]
    omega

lemma next_map {N P : Nat} (s : SVMap N P) :
    ∃ c p, s.next.1.map = s.map.map (fun kv => (kv.1, rollRecord c p kv.2)) := by
  by_cases h : s.current + 1 ≥ P
  · exact ⟨s.current + 1 - P, s.current, by simp [SVMap.next, h, rollForward]⟩
  · exact ⟨s.current + 1, s.current, by simp [SVMap.next, h, rollForward]⟩

lemma mapUpdate_forall {p : ValueRec → Prop} :
    ∀ (m : List (Name × ValueRec)) (k : Name) (f : ValueRec → ValueRec),
      (∀ kv ∈ m, p kv.2) → (∀ vr, p vr → p (f vr)) →
      ∀ kv ∈ mapUpdate m k f, p kv.2
  | [], _, _, _, _ => by simp [mapUpdate]
  | kv0 :: rest, k, f, hall, hf => by
      intro kv hkv
      by_cases hk : kv0.1 = k
      · simp [mapUpdate, hk] at hkv
        rcases hkv with h | h
        · rw [h]
          exact hf _ (hall kv0 (by simp))
        · exact hall kv (List.mem_cons_of_mem _ h)
      · simp [mapUpdate, hk] at hkv
        rcases hkv with h | h
        · rw [h]
          exact hall kv0 (by simp)
        · exact mapUpdate_forall rest k f
            (fun kv2 h2 => hall kv2 (List.mem_cons_of_mem _ h2)) hf kv h

lemma applyOp_set_ok {N P : Nat} (s s2 : SVMap N P) (name : Name) (vt : ValueType)
    (v : Nat) (fr : Bool) (h : s.set_value name vt v fr = Except.ok s2) :
    applyOp s (Op.setOp name vt v fr) = s2 := by
  simp [applyOp, h]

lemma applyOp_set_error {N P : Nat} (s : SVMap N P) (name : Name) (vt : ValueType)
    (v : Nat) (fr : Bool) (h : s.set_value name vt v fr = Except.error AddError.MapOverflow) :
    applyOp s (Op.setOp name vt v fr) = s := by
  simp [applyOp, h]

lemma applyOp_inv {N P : Nat} (hP : 1 ≤ P) (s : SVMap N P) (op : Op)
    (h1 : s.current < P) (h2 : ∀ kv ∈ s.map, kv.2.vals.length = P) :
    (applyOp s op).current < P ∧ ∀ kv ∈ (applyOp s op).map, kv.2.vals.length = P := by
  cases op with
  | tickOp =>
      refine ⟨next_current_lt s hP h1, ?_⟩
      obtain ⟨c, p, hm⟩ := next_map s
      show ∀ kv ∈ s.next.1.map, kv.2.vals.length = P
      rw [hm]
      intro kv hkv
      obtain ⟨kv0, hkv0, hkveq⟩ := List.mem_map.mp hkv
      rw [← hkveq]
      simpa [rollRecord_length] using h2 kv0 hkv0
  | setOp name vt v fr =>
      cases hcc : mapContains s.map name with
      | true =>
          have he : s.set_value name vt v fr = Except.ok { s with map := (mapUpdate s.map name
              (fun vr => { vr with vals := vr.vals.set s.current v, is_only_front := fr })) } := by
            simp [SVMap.set_value, insertPhase, hcc]
          rw [applyOp_set_ok s _ name vt v fr he]
          refine ⟨h1, ?_⟩
          exact mapUpdate_forall (p := fun vr => vr.vals.length = P) s.map name _ h2
            (fun vr hvr => by simpa using hvr)
      | false =>
          by_cases hlen : s.map.length < N
          · have he : s.set_value name vt v fr =
                Except.ok { s with map := (mapUpdate (s.map ++ [(name, ValueRec.new P vt)]) name
                  (fun vr => { vr with vals := vr.vals.set s.current v, is_only_front := fr })) } := by
              simp [SVMap.set_value, insertPhase, hcc, hlen]
            have happ : ∀ kv ∈ s.map ++ [(name, ValueRec.new P vt)], kv.2.vals.length = P := by
              intro kv hkv
              rcases List.mem_append.mp hkv with h | h
              · exact h2 kv h
              · simp at h
                rw [h]
                simp [ValueRec.new]
            rw [applyOp_set_ok s _ name vt v fr he]
            refine ⟨h1, ?_⟩
            exact mapUpdate_forall (p := fun vr => vr.vals.length = P) _ name _ happ
              (fun vr hvr => by simpa using hvr)
          · have he : s.set_value name vt v fr = Except.error AddError.MapOverflow := by
              simp [SVMap.set_value, insertPhase, hcc, hlen]
            rw [applyOp_set_error s name vt v fr he]
            exact ⟨h1, h2⟩

lemma runOps_inv {N P : Nat} (hP : 1 ≤ P) :
    ∀ (ops : List Op) (s : SVMap N P), s.current < P →
      (∀ kv ∈ s.map, kv.2.vals.length = P) →
      (runOps ops s).current < P ∧ ∀ kv ∈ (runOps ops s).map, kv.2.vals.length = P
  | [], s, h1, h2 => ⟨h1, h2⟩
  | op :: ops, s, h1, h2 => by
      have h := applyOp_inv hP s op h1 h2
      exact runOps_inv hP ops (applyOp s op) h.1 h.2

lemma insertPhase_contains {N P : Nat} (s : SVMap N P) (name : Name) (vt : ValueType)
    (m1 : List (Name × ValueRec)) (h : insertPhase s name vt = Except.ok m1) :
    mapContains m1 name = true := by
  cases hcc : mapContains s.map name with
  | true =>
      simp [insertPhase, hcc] at h
      rw [← h]
      exact hcc
  | false =>
      by_cases hlen : s.map.length < N
      · simp [insertPhase, hcc, hlen] at h
        rw [← h]
        have hnone := (mapContains_false_iff _ _).mp hcc
        simp [mapContains, mapLookup_append_none _ _ _ hnone]
      · simp [insertPhase, hcc, hlen] at h

end SVisual

namespace SVisual

lemma toLeBytes4_length (n : Nat) : (toLeBytes4 n).length = 4 := rfl

lemma concatBytes_length {α : Type} (f : α → List Nat) (c : Nat) :
    ∀ (l : List α), (∀ x ∈ l, (f x).length = c) → (concatBytes f l).length = l.length * c
  | [], _ => by simp [concatBytes]
  | x :: l, h => by
      have hx : (f x).length = c := h x (by simp)
      have ih := concatBytes_length f c l (fun y hy => h y (List.mem_cons_of_mem _ hy))
      simp [concatBytes, List.length_append, hx, ih]
      ring

lemma take_exact {α : Type} (l1 l2 : List α) (n : Nat) (h : l1.length = n) :
    (l1 ++ l2).take n = l1 := by
  subst h
  exact List.take_left l1 l2

lemma drop_exact {α : Type} (l1 l2 : List α) (n : Nat) (h : l1.length = n) :
    (l1 ++ l2).drop n = l2 := by
  subst h
  exact List.drop_left l1 l2

lemma drop_append_add {α : Type} (l1 l2 : List α) (a n : Nat) (h : l1.length = a) :
    (l1 ++ l2).drop (a + n) = l2.drop n := by
  subst h
  rw [← List.drop_drop, List.drop_left]

lemma concatBytes_extract {α : Type} (f : α → List Nat) (c : Nat) (suffix : List Nat) :
    ∀ (l : List α), (∀ x ∈ l, (f x).length = c) →
      ∀ (k : Nat) (hk : k < l.length),
        ((concatBytes f l ++ suffix).drop (k * c)).take c = f (l.get ⟨k, hk⟩)
  | [], _, k, hk => by simp at hk
  | x :: l, h, 0, hk => by
      show ((concatBytes f (x :: l) ++ suffix).drop (0 * c)).take c = f x
      rw [Nat.zero_mul, List.drop_zero]
      show (((f x ++ concatBytes f l) ++ suffix)).take c = f x
      rw [List.append_assoc]
      exact take_exact _ _ c (h x (by simp))
  | x :: l, h, k + 1, hk => by
      have hx : (f x).length = c := h x (by simp)
      have harith : (k + 1) * c = c + k * c := by ring
      show ((concatBytes f (x :: l) ++ suffix).drop ((k + 1) * c)).take c = _
      rw [harith]
      show (((f x ++ concatBytes f l) ++ suffix).drop (c + k * c)).take c = _
      rw [List.append_assoc, drop_append_add (f x) _ c (k * c) hx]
      exact concatBytes_extract f c suffix l
        (fun y hy => h y (List.mem_cons_of_mem _ hy)) k (by simpa using hk)

lemma padName_length (n : Name) (h : n.length ≤ Name.MAX_SIZE) :
    (padName n).length = Name.MAX_SIZE := by
  simp [padName]
  omega

lemma recordBytes_length {P : Nat} (kv : Name × ValueRec)
    (h1 : kv.1.length < Name.MAX_SIZE) (h2 : kv.2.vals.length = P) :
    (recordBytes kv).length = vlSize P := by
  have hc := concatBytes_length toLeBytes4 4 kv.2.vals (fun x _ => rfl)
  simp [recordBytes, List.length_append, padName_length kv.1 (le_of_lt h1),
    toLeBytes4_length, hc, h2, vlSize]
  omega

lemma send_package_assoc {N P : Nat} (moduleName : Name) (s : SVMap N P) :
    send_package moduleName s =
      beginBytes ++ (toLeBytes4 (fullSize P s.map) ++ (padName moduleName ++
        (concatBytes recordBytes s.map ++ endBytes))) := by
  simp [send_package]

lemma mapLookup_map_val (g : ValueRec → ValueRec) :
    ∀ (m : List (Name × ValueRec)) (k : Name),
      mapLookup (m.map (fun kv => (kv.1, g kv.2))) k = (mapLookup m k).map g
  | [], _ => rfl
  | kv :: rest, k => by
      by_cases hk : kv.1 = k
      · simp [mapLookup, hk]
      · simp [mapLookup, hk]
        exact mapLookup_map_val g rest k

lemma next_eq {N P : Nat} (s : SVMap N P) (h : s.current < P) :
    s.next.1.current = (s.current + 1) % P ∧
    s.next.1.map = s.map.map (fun kv =>
      (kv.1, rollRecord ((s.current + 1) % P) s.current kv.2)) := by
  by_cases hge : s.current + 1 ≥ P
  · have heq : s.current + 1 = P := by omega
    have hmod : (s.current + 1) % P = 0 := by rw [heq, Nat.mod_self]
    have hsub : s.current + 1 - P = 0 := by omega
    constructor <;> simp [SVMap.next, hge, rollForward, rollForward_current, hmod, hsub]
  · have hmod : (s.current + 1) % P = s.current + 1 := Nat.mod_eq_of_lt (by omega)
    constructor <;> simp [SVMap.next, hge, rollForward, rollForward_current, hmod]

lemma rollRecord_front (c p : Nat) (vr : ValueRec) :
    (rollRecord c p vr).is_only_front = vr.is_only_front := rfl

lemma rollRecord_vals_hold (c p : Nat) (vr : ValueRec) (hof : vr.is_only_front = false) :
    (rollRecord c p vr).vals = vr.vals.set c (vr.vals.getD p 0) := by
  simp [rollRecord, hof]

lemma runTicks_succ_state {N P : Nat} (k : Nat) (s : SVMap N P) :
    (runTicks (k + 1) s).1 = (runTicks k s.next.1).1 := rfl

lemma hold_invariant {N P : Nat} (x : Nat) :
    ∀ (k : Nat) (s : SVMap N P) (name : Name) (vr : ValueRec),
      s.current < P →
      mapLookup s.map name = some vr →
      vr.is_only_front = false →
      vr.vals.length = P →
      vr.vals.getD s.current 0 = x →
      ∃ vr2, mapLookup (runTicks k s).1.map name = some vr2 ∧
        vr2.is_only_front = false ∧ vr2.vals.length = P ∧
        (∀ i, i < P → vr.vals.getD i 0 = x → vr2.vals.getD i 0 = x) ∧
        (∀ i, i < P → (∃ j, j ≤ k ∧ (s.current + j) % P = i) → vr2.vals.getD i 0 = x)
  | 0, s, name, vr, hc, hfind, hof, hlen, hx => by
      refine ⟨vr, hfind, hof, hlen, fun i _ h => h, ?_⟩
      rintro i hi ⟨j, hj, hij⟩
      have hj0 : j = 0 := by omega
      subst hj0
      have : (s.current + 0) % P = s.current := by
        rw [Nat.add_zero]
        exact Nat.mod_eq_of_lt hc
      rw [this] at hij
      rw [← hij]
      exact hx
  | k + 1, s, name, vr, hc, hfind, hof, hlen, hx => by
      have hP : 0 < P := by omega
      obtain ⟨hcur1, hmap1⟩ := next_eq s hc
      set c1 := (s.current + 1) % P with hc1def
      have hc1lt : c1 < P := Nat.mod_lt _ hP
      set vr1 := rollRecord c1 s.current vr with hvr1def
      have hfind1 : mapLookup s.next.1.map name = some vr1 := by
        rw [hmap1, mapLookup_map_val, hfind]
        rfl
      have hof1 : vr1.is_only_front = false := by
        rw [hvr1def, rollRecord_front]
        exact hof
      have hvals1 : vr1.vals = vr.vals.set c1 x := by
        rw [hvr1def, rollRecord_vals_hold _ _ _ hof, hx]
      have hlen1 : vr1.vals.length = P := by
        rw [hvals1]
        simp [hlen]
      have hx1 : vr1.vals.getD c1 0 = x := by
        rw [hvals1]
        exact getD_set_self _ _ _ (by omega)
      have ih := hold_invariant x k s.next.1 name vr1
        (by rw [hcur1]; exact hc1lt) hfind1 hof1 hlen1 (by rw [hcur1]; exact hx1)
      obtain ⟨vr2, h1, h2, h3, hA1, hB1⟩ := ih
      have hlift : ∀ i, i < P → vr.vals.getD i 0 = x → vr1.vals.getD i 0 = x := by
        intro i hi hvi
        rw [hvals1]
        by_cases hic : i = c1
        · rw [hic]
          exact getD_set_self _ _ _ (by omega)
        · rw [getD_set_ne _ _ _ _ (fun hh => hic hh.symm)]
          exact hvi
      have hAfin : ∀ i, i < P → vr.vals.getD i 0 = x → vr2.vals.getD i 0 = x := by
        intro i hi hvi
        exact hA1 i hi (hlift i hi hvi)
      refine ⟨vr2, by rw [runTicks_succ_state]; exact h1, h2, h3, hAfin, ?_⟩
      rintro i hi ⟨j, hj, hij⟩
      cases j with
      | zero =>
          have hic : i = s.current := by
            rw [← hij, Nat.add_zero]
            exact Nat.mod_eq_of_lt hc
          exact hAfin i hi (by rw [hic]; exact hx)
      | succ j' =>
          apply hB1 i hi
          refine ⟨j', by omega, ?_⟩
          rw [hcur1]
          rw [hc1def, Nat.mod_add_mod]
          rw [← hij]
          congr 1
          omega

end SVisual

namespace SVisual

/-- C1: evaluation of the code at the divergence point.  After registering a
    signal through the only-front overload (`set("p", OnlyFront(true))`) on a
    fresh map, the stored record has `is_only_front` equal to `false` — the source
    constant `OnlyFront::ONLY_FRONT` at src/lib.rs line 169 is `false` — whereas
    the spec requires `true` for this overload.  The plain `bool` overload also
    yields `false`, as the spec states. -/
theorem C1_onlyfront_flag_is_false :
    (match (SVMap.new : SVMap 2 3).set onlyFrontValue [112] true with
     | Except.ok s => (mapLookup s.map [112]).map (fun vr => vr.is_only_front)
     | Except.error _ => none) = some false ∧
    (match (SVMap.new : SVMap 2 3).set boolValue [113] true with
     | Except.ok s => (mapLookup s.map [113]).map (fun vr => vr.is_only_front)
     | Except.error _ => none) = some false := by
  decide

/-- C2: evaluation of the only-front scenario (`P = 3`, set "p" OnlyFront(true);
    tick; set; tick; tick).  Both sets succeed, the first two ticks do not
    flush, the third tick does flush, and at flush time the stored vals for "p"
    are `[1, 1, 1]` — not `[1, 1, 0]` as Scenario C of the spec claims — because
    the record has `is_only_front` equal to `false` and the hold rule copies the
    previous sample instead of zeroing the silent slot. -/
theorem C2_onlyfront_scenario_flush_vals :
    ((SVMap.new : SVMap 2 3).set onlyFrontValue [112] true).isOk = true ∧
    scenC1.next.2 = none ∧
    (scenC2.set onlyFrontValue [112] true).isOk = true ∧
    scenC3.next.2 = none ∧
    scenC4.next.2.map (fun s => (mapLookup s.map [112]).map (fun vr => vr.vals)) =
      some (some [1, 1, 1]) := by
  decide

/-- C3: for every `P ≥ 1` and every map state with `current = 0`, `P` consecutive
    `next` calls invoke the flush closure exactly once, the first `P - 1` calls
    invoke it zero times, the `P`-th call passes the closure the state whose
    cursor has just wrapped to `0` and whose values are not yet rolled forward,
    and the post-state has `current = 0`. -/
theorem C3_flush_exactly_once_per_window {N P : Nat} (s : SVMap N P)
    (hP : 1 ≤ P) (hc : s.current = 0) :
    (runTicks P s).2 = 1 ∧ (runTicks P s).1.current = 0 ∧
    (runTicks (P - 1) s).2 = 0 ∧
    ((runTicks (P - 1) s).1).next.2 = some { (runTicks (P - 1) s).1 with current := 0 } := by
  have h1 := runTicks_flush_once P s (by omega) (by omega)
  have h2 := runTicks_no_flush (P - 1) s (by omega)
  have h3 : (runTicks (P - 1) s).1.current + 1 = P := by
    rw [h2.1]
    omega
  exact ⟨h1.1, h1.2, h2.2, (next_wrap _ h3).2⟩

/-- Witness for C3 at `N = 1`, `P = 2`, fresh map. -/
theorem C3_flush_exactly_once_per_window_witness :
    1 ≤ 2 ∧ (SVMap.new : SVMap 1 2).current = 0 ∧
    ((runTicks 2 (SVMap.new : SVMap 1 2)).2 = 1 ∧
     (runTicks 2 (SVMap.new : SVMap 1 2)).1.current = 0 ∧
     (runTicks (2 - 1) (SVMap.new : SVMap 1 2)).2 = 0 ∧
     ((runTicks (2 - 1) (SVMap.new : SVMap 1 2)).1).next.2 =
       some { (runTicks (2 - 1) (SVMap.new : SVMap 1 2)).1 with current := 0 }) :=
  ⟨by decide, rfl, C3_flush_exactly_once_per_window (SVMap.new : SVMap 1 2) (by decide) rfl⟩

/-- C4: sample-and-hold.  For a registered signal whose `is_only_front` flag is
    `false`, whose record is well formed (`vals` has length `P`, cursor in
    range) and whose current slot holds the last-observed sample `x`, a window
    of `P` ticks with no intervening `set` leaves every slot of its `vals`
    equal to `x`. -/
theorem C4_sample_and_hold {N P : Nat} (s : SVMap N P) (name : Name) (vr : ValueRec)
    (x : Nat) (hc : s.current < P) (hfind : mapLookup s.map name = some vr)
    (hof : vr.is_only_front = false) (hlen : vr.vals.length = P)
    (hx : vr.vals.getD s.current 0 = x) :
    ∃ vr2, mapLookup (runTicks P s).1.map name = some vr2 ∧
      vr2.vals.length = P ∧ ∀ i, i < P → vr2.vals.getD i 0 = x := by
  obtain ⟨vr2, h1, _, h3, _, hB⟩ := hold_invariant x P s name vr hc hfind hof hlen hx
  refine ⟨vr2, h1, h3, ?_⟩
  intro i hi
  apply hB i hi
  by_cases hci : s.current ≤ i
  · refine ⟨i - s.current, by omega, ?_⟩
    have : s.current + (i - s.current) = i := by omega
    rw [this]
    exact Nat.mod_eq_of_lt hi
  · refine ⟨i + P - s.current, by omega, ?_⟩
    have : s.current + (i + P - s.current) = i + P := by omega
    rw [this, Nat.add_mod_right]
    exact Nat.mod_eq_of_lt hi

/-- Witness for C4: a one-signal map with `P = 2`, last sample `1`. -/
theorem C4_sample_and_hold_witness :
    holdWitnessMap.current < 2 ∧
    (∃ vr2, mapLookup (runTicks 2 holdWitnessMap).1.map [120] = some vr2 ∧
      vr2.vals.length = 2 ∧ ∀ i, i < 2 → vr2.vals.getD i 0 = 1) :=
  ⟨by decide,
   C4_sample_and_hold holdWitnessMap [120]
     { is_only_front := false, vtype := ValueType.Bool, vals := [1, 0] } 1
     (by decide) (by decide) rfl rfl rfl⟩

/-- C5: for every module name and map whose names respect the `Name` bound and
    whose records carry `P` samples, a successful `send_package` writes exactly
    `7 + 4 + full_size + 5` bytes, with
    `full_size = 24 + (24 + 4 + P*4) * M` for `M` registered signals, and the
    four bytes at offset 7 are the little-endian encoding of that `full_size`. -/
theorem C5_package_byte_count {N P : Nat} (moduleName : Name) (s : SVMap N P)
    (hm : moduleName.length < Name.MAX_SIZE)
    (hrec : ∀ kv ∈ s.map, kv.1.length < Name.MAX_SIZE ∧ kv.2.vals.length = P) :
    (send_package moduleName s).length =
      7 + 4 + (24 + (24 + 4 + P * 4) * s.map.length) + 5 ∧
    ((send_package moduleName s).drop 7).take 4 =
      toLeBytes4 (24 + (24 + 4 + P * 4) * s.map.length) := by
  have hrecl : ∀ kv ∈ s.map, (recordBytes kv).length = vlSize P :=
    fun kv hkv => recordBytes_length kv (hrec kv hkv).1 (hrec kv hkv).2
  have hcat := concatBytes_length recordBytes (vlSize P) s.map hrecl
  constructor
  · rw [send_package_assoc]
    simp only [List.length_append, toLeBytes4_length, hcat,
      padName_length moduleName (le_of_lt hm)]
    simp only [beginBytes, endBytes, vlSize, Name.MAX_SIZE, List.length_cons,
      List.length_nil]
    ring
  · rw [send_package_assoc, drop_exact beginBytes _ 7 rfl,
      take_exact _ _ 4 (toLeBytes4_length _)]
    simp only [fullSize, vlSize, Name.MAX_SIZE]

/-- Witness for C5: one `i32` signal, `P = 1`, module "m". -/
theorem C5_package_byte_count_witness :
    (send_package [109] packageWitnessMap).length =
      7 + 4 + (24 + (24 + 4 + 1 * 4) * packageWitnessMap.map.length) + 5 ∧
    ((send_package [109] packageWitnessMap).drop 7).take 4 =
      toLeBytes4 (24 + (24 + 4 + 1 * 4) * packageWitnessMap.map.length) :=
  C5_package_byte_count [109] packageWitnessMap (by decide) (by decide)

/-- C6: positional wire layout of a successful `send_package`: bytes 0 to 6 are
    the literal "=begin=", bytes 7 to 10 the little-endian `full_size`, bytes
    11 to 34 the module name NUL-padded to 24 bytes, then one `vl_size`-byte
    record per signal at offset `35 + k * vl_size` consisting of the 24-byte
    NUL-padded name, the `vtype` discriminant as a little-endian 32-bit word and
    the `P` samples of 4 little-endian bytes each, and after the records the
    literal "=end=". -/
theorem C6_package_layout {N P : Nat} (moduleName : Name) (s : SVMap N P)
    (hm : moduleName.length < Name.MAX_SIZE)
    (hrec : ∀ kv ∈ s.map, kv.1.length < Name.MAX_SIZE ∧ kv.2.vals.length = P) :
    (send_package moduleName s).take 7 = [61, 98, 101, 103, 105, 110, 61] ∧
    ((send_package moduleName s).drop 7).take 4 = toLeBytes4 (fullSize P s.map) ∧
    ((send_package moduleName s).drop 11).take 24 =
      moduleName ++ List.replicate (24 - moduleName.length) 0 ∧
    (∀ (k : Nat) (hk : k < s.map.length),
      ((send_package moduleName s).drop (35 + k * (24 + 4 + P * 4))).take (24 + 4 + P * 4) =
        (s.map.get ⟨k, hk⟩).1 ++
          List.replicate (24 - (s.map.get ⟨k, hk⟩).1.length) 0 ++
          toLeBytes4 (s.map.get ⟨k, hk⟩).2.vtype.code ++
          concatBytes toLeBytes4 (s.map.get ⟨k, hk⟩).2.vals) ∧
    (send_package moduleName s).drop (35 + s.map.length * (24 + 4 + P * 4)) =
      [61, 101, 110, 100, 61] := by
  have hrecl : ∀ kv ∈ s.map, (recordBytes kv).length = vlSize P :=
    fun kv hkv => recordBytes_length kv (hrec kv hkv).1 (hrec kv hkv).2
  have hcat := concatBytes_length recordBytes (vlSize P) s.map hrecl
  refine ⟨?_, ?_, ?_, ?_, ?_⟩
  · rw [send_package_assoc]
    exact take_exact _ _ 7 rfl
  · rw [send_package_assoc, drop_exact beginBytes _ 7 rfl]
    exact take_exact _ _ 4 (toLeBytes4_length _)
  · rw [send_package_assoc]
    have h11 : (11 : Nat) = 7 + 4 := rfl
    rw [h11, drop_append_add beginBytes _ 7 4 rfl,
      drop_exact (toLeBytes4 _) _ 4 (toLeBytes4_length _)]
    exact take_exact _ _ 24 (padName_length _ (le_of_lt hm))
  · intro k hk
    have harith : 35 + k * (24 + 4 + P * 4) = 7 + (4 + (24 + k * vlSize P)) := by
      simp only [vlSize, Name.MAX_SIZE]
      ring
    rw [send_package_assoc, harith, drop_append_add beginBytes _ 7 _ rfl,
      drop_append_add (toLeBytes4 _) _ 4 _ (toLeBytes4_length _),
      drop_append_add (padName moduleName) _ 24 _ (padName_length _ (le_of_lt hm))]
    exact concatBytes_extract recordBytes (vlSize P) endBytes s.map hrecl k hk
  · have harith2 : 35 + s.map.length * (24 + 4 + P * 4) =
        7 + (4 + (24 + s.map.length * vlSize P)) := by
      simp only [vlSize, Name.MAX_SIZE]
      ring
    rw [send_package_assoc, harith2, drop_append_add beginBytes _ 7 _ rfl,
      drop_append_add (toLeBytes4 _) _ 4 _ (toLeBytes4_length _),
      drop_append_add (padName moduleName) _ 24 _ (padName_length _ (le_of_lt hm)),
      drop_exact (concatBytes recordBytes s.map) endBytes _ hcat]
    rfl

/-- Witness for C6 at the same concrete one-signal map as C5. -/
theorem C6_package_layout_witness :
    (send_package [109] packageWitnessMap).take 7 = [61, 98, 101, 103, 105, 110, 61] ∧
    ((send_package [109] packageWitnessMap).drop 7).take 4 =
      toLeBytes4 (fullSize 1 packageWitnessMap.map) ∧
    ((send_package [109] packageWitnessMap).drop 11).take 24 =
      [109] ++ List.replicate (24 - ([109] : Name).length) 0 ∧
    (∀ (k : Nat) (hk : k < packageWitnessMap.map.length),
      ((send_package [109] packageWitnessMap).drop
          (35 + k * (24 + 4 + 1 * 4))).take (24 + 4 + 1 * 4) =
        (packageWitnessMap.map.get ⟨k, hk⟩).1 ++
          List.replicate (24 - (packageWitnessMap.map.get ⟨k, hk⟩).1.length) 0 ++
          toLeBytes4 (packageWitnessMap.map.get ⟨k, hk⟩).2.vtype.code ++
          concatBytes toLeBytes4 (packageWitnessMap.map.get ⟨k, hk⟩).2.vals) ∧
    (send_package [109] packageWitnessMap).drop
        (35 + packageWitnessMap.map.length * (24 + 4 + 1 * 4)) =
      [61, 101, 110, 100, 61] :=
  C6_package_layout [109] packageWitnessMap (by decide) (by decide)

end SVisual

namespace SVisual

/-- C7: capacity behaviour of `set_value`.  On a map already holding `N` names,
    a `set` with a fresh name returns `MapOverflow` and leaves the whole state
    unchanged, while a `set` with a name already present still succeeds, keeps
    the cursor, updates exactly that record (current slot and flag) and leaves
    the lookup of every other record unchanged. -/
theorem C7_map_overflow_behavior {N P : Nat} (s : SVMap N P) (name : Name)
    (vt : ValueType) (v : Nat) (fr : Bool) :
    (s.map.length = N → mapLookup s.map name = none →
      s.set_value name vt v fr = Except.error AddError.MapOverflow ∧
      applyOp s (Op.setOp name vt v fr) = s) ∧
    (∀ vr, mapLookup s.map name = some vr →
      ∃ s2, s.set_value name vt v fr = Except.ok s2 ∧ s2.current = s.current ∧
        mapLookup s2.map name =
          some { vr with vals := vr.vals.set s.current v, is_only_front := fr } ∧
        ∀ k2, k2 ≠ name → mapLookup s2.map k2 = mapLookup s.map k2) := by
  constructor
  · intro hN hnone
    have hc : mapContains s.map name = false := (mapContains_false_iff _ _).mpr hnone
    have hlen : ¬ s.map.length < N := by omega
    have he : s.set_value name vt v fr = Except.error AddError.MapOverflow := by
      simp [SVMap.set_value, insertPhase, hc, hlen]
    exact ⟨he, by simp [applyOp, he]⟩
  · intro vr hvr
    have hc : mapContains s.map name = true := mapContains_true_of_some hvr
    refine ⟨{ s with map := (mapUpdate s.map name (fun vr2 =>
        { vr2 with vals := vr2.vals.set s.current v, is_only_front := fr })) }, ?_, rfl, ?_, ?_⟩
    · simp [SVMap.set_value, insertPhase, hc]
    · exact mapLookup_update_self _ _ _ _ hvr
    · intro k2 hk2
      exact mapLookup_update_ne _ _ _ _ hk2

/-- Witness for C7 at a full map of capacity one: a fresh name overflows with no
    mutation. -/
theorem C7_map_overflow_behavior_witness :
    fullWitnessMap.map.length = 1 ∧ mapLookup fullWitnessMap.map [98] = none ∧
    (fullWitnessMap.set_value [98] ValueType.Int 5 false =
      Except.error AddError.MapOverflow ∧
     applyOp fullWitnessMap (Op.setOp [98] ValueType.Int 5 false) = fullWitnessMap) :=
  ⟨by decide, by decide,
   (C7_map_overflow_behavior fullWitnessMap [98] ValueType.Int 5 false).1
     (by decide) (by decide)⟩

/-- C8: the declared type is sticky.  Re-setting an already registered name with
    a value of a different supported type overwrites only the raw word at the
    current slot and the `is_only_front` flag; the `vtype` of the record stays the
    one fixed at first registration. -/
theorem C8_vtype_sticky_on_retype {N P : Nat} (s : SVMap N P) (name : Name)
    (vr : ValueRec) (vt2 : ValueType) (v : Nat) (fr : Bool)
    (hfind : mapLookup s.map name = some vr) :
    ∃ s2, s.set_value name vt2 v fr = Except.ok s2 ∧ s2.current = s.current ∧
      mapLookup s2.map name =
        some { is_only_front := fr, vtype := vr.vtype, vals := vr.vals.set s.current v } := by
  have hc : mapContains s.map name = true := mapContains_true_of_some hfind
  refine ⟨{ s with map := (mapUpdate s.map name (fun vr2 =>
      { vr2 with vals := vr2.vals.set s.current v, is_only_front := fr })) }, ?_, rfl, ?_⟩
  · simp [SVMap.set_value, insertPhase, hc]
  · exact mapLookup_update_self _ _ _ _ hfind

/-- Witness for C8: an `Int` record re-set through the `f32` type keeps
    `vtype = Int`. -/
theorem C8_vtype_sticky_on_retype_witness :
    ∃ s2, fullWitnessMap.set_value [97] ValueType.Float 3 false = Except.ok s2 ∧
      s2.current = fullWitnessMap.current ∧
      mapLookup s2.map [97] =
        some { is_only_front := false, vtype := ValueType.Int, vals := [3] } :=
  C8_vtype_sticky_on_retype fullWitnessMap [97]
    { is_only_front := false, vtype := ValueType.Int, vals := [0] }
    ValueType.Float 3 false (by decide)

/-- C9: for every `P ≥ 1` and every finite sequence of `set` and tick calls
    starting from the fresh map, the cursor stays in `[0, P)` and every stored
    record keeps exactly `P` samples, so the index `vals[current]` is always in
    range; moreover, whenever the insert phase of `set_value` succeeds, the
    subsequent map lookup finds the key, so the `unwrap` after the
    insert/contains check cannot fail. -/
theorem C9_cursor_in_range {N P : Nat} (ops : List Op) (hP : 1 ≤ P) :
    (runOps ops (SVMap.new : SVMap N P)).current < P ∧
    (∀ kv ∈ (runOps ops (SVMap.new : SVMap N P)).map, kv.2.vals.length = P) ∧
    (∀ (s : SVMap N P) (name : Name) (vt : ValueType) (m1 : List (Name × ValueRec)),
      insertPhase s name vt = Except.ok m1 → mapContains m1 name = true) := by
  have h := runOps_inv hP ops (SVMap.new : SVMap N P) (by simpa [SVMap.new] using hP)
    (by simp [SVMap.new])
  exact ⟨h.1, h.2, fun s name vt m1 hm => insertPhase_contains s name vt m1 hm⟩

/-- Witness for C9 at `N = 1`, `P = 1` and a two-call sequence. -/
theorem C9_cursor_in_range_witness :
    1 ≤ 1 ∧
    ((runOps [Op.setOp [97] ValueType.Int 5 false, Op.tickOp]
        (SVMap.new : SVMap 1 1)).current < 1 ∧
     (∀ kv ∈ (runOps [Op.setOp [97] ValueType.Int 5 false, Op.tickOp]
        (SVMap.new : SVMap 1 1)).map, kv.2.vals.length = 1) ∧
     (∀ (s : SVMap 1 1) (name : Name) (vt : ValueType) (m1 : List (Name × ValueRec)),
        insertPhase s name vt = Except.ok m1 → mapContains m1 name = true)) :=
  ⟨by decide, C9_cursor_in_range [Op.setOp [97] ValueType.Int 5 false, Op.tickOp] (by decide)⟩

/-- C10: a signal first registered through the only-front overload is recorded
    with `vtype = Bool`, so its wire type field is the little-endian 32-bit
    encoding of `0`, identical to that of a plain `bool` signal. -/
theorem C10_onlyfront_registers_bool {N P : Nat} (s : SVMap N P) (name : Name)
    (b : Bool) (s2 : SVMap N P) (habsent : mapLookup s.map name = none)
    (hok : s.set onlyFrontValue name b = Except.ok s2) :
    ∃ vr, mapLookup s2.map name = some vr ∧ vr.vtype = ValueType.Bool ∧
      toLeBytes4 vr.vtype.code = [0, 0, 0, 0] ∧
      toLeBytes4 vr.vtype.code = toLeBytes4 boolValue.TYPE.code := by
  have hc : mapContains s.map name = false := (mapContains_false_iff _ _).mpr habsent
  by_cases hlen : s.map.length < N
  · have heq : s.set onlyFrontValue name b =
        Except.ok { s with map := (mapUpdate (s.map ++ [(name, ValueRec.new P ValueType.Bool)]) name
          (fun vr => { vr with vals := vr.vals.set s.current (cond b 1 0), is_only_front := false })) } := by
      simp [SVMap.set, SVMap.set_value, insertPhase, onlyFrontValue, hc, hlen]
    rw [heq] at hok
    have hs2 := Except.ok.inj hok
    have hl : mapLookup (s.map ++ [(name, ValueRec.new P ValueType.Bool)]) name =
        some (ValueRec.new P ValueType.Bool) := mapLookup_append_none _ _ _ habsent
    refine ⟨{ ValueRec.new P ValueType.Bool with
        vals := (ValueRec.new P ValueType.Bool).vals.set s.current (cond b 1 0),
        is_only_front := false }, ?_, ?_, ?_, ?_⟩
    · rw [← hs2]
      exact mapLookup_update_self _ _ _ _ hl
    · simp [ValueRec.new]
    · simp [ValueRec.new, ValueType.code, toLeBytes4]
    · simp [ValueRec.new, ValueType.code, toLeBytes4, boolValue]
  · have : s.set onlyFrontValue name b = Except.error AddError.MapOverflow := by
      simp [SVMap.set, SVMap.set_value, insertPhase, onlyFrontValue, hc, hlen]
    rw [this] at hok
    exact absurd hok (by simp)

/-- Witness for C10 on a fresh map with `P = 3`. -/
theorem C10_onlyfront_registers_bool_witness :
    ∃ vr, mapLookup onlyFrontWitnessResult.map [112] = some vr ∧
      vr.vtype = ValueType.Bool ∧
      toLeBytes4 vr.vtype.code = [0, 0, 0, 0] ∧
      toLeBytes4 vr.vtype.code = toLeBytes4 boolValue.TYPE.code :=
  C10_onlyfront_registers_bool (SVMap.new : SVMap 1 3) [112] true onlyFrontWitnessResult
    (by decide) (by rfl)

end SVisual
